import Mathlib

/-!
Verification development for the SkillMiner research subsystem: the
memory-augmented LSTM variants, their memory features (token-budget
truncation, extractive summarization, NER fallback, local semantic memory)
and the training/evaluation harnesses for the logs dataset.

Shallow embedding conventions:
* Python strings are modelled as `String` / `List Char`; text processing
  functions operate on `List Char` where character-level behaviour matters.
* Machine floats are modelled by exact rationals `ℚ`; the float comparison
  `cutoff > max_chars * 0.8` is embedded as the exact rational comparison
  `5 * cutoff > 4 * max_chars`, which agrees with the float computation on
  the practical input range.
* Cosine similarities are represented by the order-isomorphic rational key
  `d * |d| / (‖q‖² * ‖v‖²)` (the image of the similarity `d / (‖q‖ ‖v‖)`
  under the strictly increasing map `x ↦ x * |x|`), avoiding square roots
  while preserving the exact comparison order used for ranking.
* The deterministic hash-seeded embedder (`numpy.random.RandomState`) is
  abstracted as an arbitrary fixed function `embedFn : String → List ℚ`;
  only its determinism (it is a function of the text) is relied upon.
-/

namespace SkillMiner

/-! ### Python-style character/string helpers -/

/-- Characters treated as whitespace by Python's `str.strip()` (ASCII part). -/
def pyWhitespace (c : Char) : Bool :=
  c = ' ' || c = '\t' || c = '\n' || c = '\r' || c = Char.ofNat 11 || c = Char.ofNat 12

/-- Python `str.strip()`: drop whitespace from both ends. -/
def pyStrip (l : List Char) : List Char :=
  ((l.dropWhile pyWhitespace).reverse.dropWhile pyWhitespace).reverse

/-- Python `str.rfind(ch)`: highest index of `ch` in `l`, or `-1` when absent. -/
def pyRfind (ch : Char) : List Char → Int
  | [] => -1
  | x :: xs =>
    let r := pyRfind ch xs
    if 0 ≤ r then r + 1
    else if x = ch then 0 else -1

/-- `re.split` on a character class regex `[…]+`: split at maximal runs of
separator characters (`splitSeps p` mirrors `re.split(r"[.!?]+", ·)` when
`p` accepts exactly `.`, `!`, `?`). -/
def splitSeps (p : Char → Bool) : List Char → List (List Char)
  | [] => [[]]
  | [c] => if p c then [[], []] else [[c]]
  | c :: d :: rest =>
    if p c then
      if p d then splitSeps p (d :: rest)
      else [] :: splitSeps p (d :: rest)
    else
      match splitSeps p (d :: rest) with
      | [] => [[c]]
      | t :: ts => (c :: t) :: ts

/-- Sentence separators of the extractive summarizer's regex `[.!?]+`. -/
def sentenceSep (c : Char) : Bool :=
  c = '.' || c = '!' || c = '?'

/-! ### TokenLimitController (fallback heuristic path)

`memory_features.TokenLimitController` with `tokenizer = None`, i.e. the
`len(text) // 4` character heuristic. -/

/-- `TokenLimitController._estimate_tokens` on the fallback path. -/
def estimateTokens (text : List Char) : Nat :=
  if text = [] then 0 else text.length / 4

/-- `TokenLimitController.truncate` on the fallback (no tokenizer) path. -/
def truncateFallback (text : List Char) (maxTokens : Nat) : List Char :=
  if text = [] then []
  else
    let estimated := text.length / 4
    if estimated ≤ maxTokens then text
    else
      let maxChars := maxTokens * 4
      let truncated := text.take maxChars
      let cutoff : Int := max (pyRfind '.' truncated) (pyRfind '\n' truncated)
      if 5 * cutoff > 4 * (maxChars : Int) then truncated.take (cutoff + 1).toNat
      else truncated ++ ['.', '.', '.']

/-! ### Facts about `pyRfind` -/

theorem pyRfind_lt_length (ch : Char) (l : List Char) : pyRfind ch l < l.length := by
  induction l with
  | nil => simp [pyRfind]
  | cons x xs ih =>
    simp only [pyRfind, List.length_cons]
    split
    · push_cast; omega
    · split <;> push_cast <;> omega

theorem pyRfind_mem (ch : Char) (l : List Char) (h : 0 ≤ pyRfind ch l) :
    l.getD (pyRfind ch l).toNat ' ' = ch := by
  induction l with
  | nil => simp [pyRfind] at h
  | cons x xs ih =>
    by_cases hr : 0 ≤ pyRfind ch xs
    · have hlt := pyRfind_lt_length ch xs
      simp only [pyRfind, if_pos hr]
      have : (pyRfind ch xs + 1).toNat = (pyRfind ch xs).toNat + 1 := by omega
      rw [this]
      simpa using ih hr
    · simp only [pyRfind, if_neg hr] at h ⊢
      by_cases hx : x = ch
      · simp [hx]
      · simp [hx] at h

/-- C1: `TokenLimitController.truncate` (fallback heuristic path) never
returns text whose estimated token count (`len // 4`) exceeds the requested
budget; text whose estimate already fits is returned unchanged; otherwise
either the text is cut at a sentence/newline boundary that lies beyond 80%
of the character budget, or it is hard-truncated to `4 * budget` characters
with an ellipsis marker appended. -/
theorem truncate_tokenBudget (text : List Char) (b : Nat) :
    estimateTokens (truncateFallback text b) ≤ b ∧
    (estimateTokens text ≤ b → truncateFallback text b = text) ∧
    (b < estimateTokens text →
      (∃ k : Nat, k + 1 ≤ b * 4 ∧ 4 * (b * 4) < 5 * k ∧
        (text.getD k ' ' = '.' ∨ text.getD k ' ' = '\n') ∧
        truncateFallback text b = text.take (k + 1)) ∨
      truncateFallback text b = text.take (b * 4) ++ ['.', '.', '.']) := by
  by_cases h0 : text = []
  · subst h0
    refine ⟨by simp [truncateFallback, estimateTokens], by simp [truncateFallback], ?_⟩
    intro hlt
    simp [estimateTokens] at hlt
  · by_cases hfit : text.length / 4 ≤ b
    · refine ⟨?_, ?_, ?_⟩
      · simp [truncateFallback, h0, hfit, estimateTokens]
      · intro _
        simp [truncateFallback, h0, hfit]
      · intro hlt
        simp only [estimateTokens, if_neg h0] at hlt
        omega
    · have hlen0 : text.length ≠ 0 := fun h => h0 (List.length_eq_zero.mp h)
      have hlen : 4 * (b + 1) ≤ text.length := by omega
      have htrlen : (text.take (b * 4)).length = b * 4 := by
        rw [List.length_take]
        omega
      have hres : truncateFallback text b =
          (if 5 * max (pyRfind '.' (text.take (b * 4))) (pyRfind '\n' (text.take (b * 4))) >
              4 * ((b * 4 : Nat) : Int) then
            (text.take (b * 4)).take
              (max (pyRfind '.' (text.take (b * 4))) (pyRfind '\n' (text.take (b * 4))) + 1).toNat
          else (text.take (b * 4)) ++ ['.', '.', '.']) := by
        simp only [truncateFallback, if_neg h0, if_neg hfit]
      by_cases hcut : 5 * max (pyRfind '.' (text.take (b * 4))) (pyRfind '\n' (text.take (b * 4))) >
          4 * ((b * 4 : Nat) : Int)
      · rw [if_pos hcut] at hres
        have hcutpos : 0 ≤ max (pyRfind '.' (text.take (b * 4))) (pyRfind '\n' (text.take (b * 4))) := by
          have h4 : (0 : Int) ≤ 4 * ((b * 4 : Nat) : Int) := by positivity
          omega
        have hcutlt : max (pyRfind '.' (text.take (b * 4))) (pyRfind '\n' (text.take (b * 4))) <
            ((text.take (b * 4)).length : Int) :=
          max_lt (pyRfind_lt_length _ _) (pyRfind_lt_length _ _)
        set cut := max (pyRfind '.' (text.take (b * 4))) (pyRfind '\n' (text.take (b * 4))) with hcutdef
        have hk1 : cut.toNat + 1 ≤ b * 4 := by
          rw [htrlen] at hcutlt
          omega
        have htoNat : (cut + 1).toNat = cut.toNat + 1 := by omega
        have hchar : (text.take (b * 4)).getD cut.toNat ' ' = '.' ∨
            (text.take (b * 4)).getD cut.toNat ' ' = '\n' := by
          rcases max_choice (pyRfind '.' (text.take (b * 4))) (pyRfind '\n' (text.take (b * 4))) with hm | hm
          · left
            rw [← hcutdef] at hm
            rw [hm]
            exact pyRfind_mem _ _ (hm ▸ hcutpos)
          · right
            rw [← hcutdef] at hm
            rw [hm]
            exact pyRfind_mem _ _ (hm ▸ hcutpos)
        have hgetD : (text.take (b * 4)).getD cut.toNat ' ' = text.getD cut.toNat ' ' := by
          have : cut.toNat < b * 4 := by omega
          simp [List.getD, List.getElem?_take, this]
        have htake : (text.take (b * 4)).take (cut.toNat + 1) = text.take (cut.toNat + 1) := by
          rw [List.take_take, min_eq_left hk1]
        rw [htoNat, htake] at hres
        refine ⟨?_, ?_, ?_⟩
        · rw [hres]
          simp only [estimateTokens]
          split
          · omega
          · rw [List.length_take]
            omega
        · intro hle
          exfalso
          simp only [estimateTokens, if_neg h0] at hle
          omega
        · intro _
          left
          refine ⟨cut.toNat, hk1, ?_, ?_, hres⟩
          · omega
          · rw [← hgetD]
            exact hchar
      · rw [if_neg hcut] at hres
        refine ⟨?_, ?_, ?_⟩
        · rw [hres]
          simp only [estimateTokens]
          split
          · omega
          · rw [List.length_append, htrlen]
            simp
            omega
        · intro hle
          exfalso
          simp only [estimateTokens, if_neg h0] at hle
          omega
        · intro _
          right
          exact hres

/-- Witness for C1 at a concrete input: 20 characters with no sentence
boundary and a budget of 2 tokens get hard-truncated with an ellipsis. -/
theorem truncate_tokenBudget_witness :
    (2 : Nat) < estimateTokens ("aaaaaaaaaaaaaaaaaaaa".data) ∧
    ((∃ k : Nat, k + 1 ≤ 2 * 4 ∧ 4 * (2 * 4) < 5 * k ∧
        (("aaaaaaaaaaaaaaaaaaaa".data).getD k ' ' = '.' ∨
          ("aaaaaaaaaaaaaaaaaaaa".data).getD k ' ' = '\n') ∧
        truncateFallback ("aaaaaaaaaaaaaaaaaaaa".data) 2 =
          ("aaaaaaaaaaaaaaaaaaaa".data).take (k + 1)) ∨
      truncateFallback ("aaaaaaaaaaaaaaaaaaaa".data) 2 =
        ("aaaaaaaaaaaaaaaaaaaa".data).take (2 * 4) ++ ['.', '.', '.']) :=
  ⟨by decide, (truncate_tokenBudget ("aaaaaaaaaaaaaaaaaaaa".data) 2).2.2 (by decide)⟩

/-! ### Checkpoint policy of the logs training harness

`train_logs_lstm.main` keeps `best_val_acc = 0.0` and, after each epoch,
executes `if val_acc >= best_val_acc: best_val_acc = val_acc; torch.save(...)`.
Validation accuracies are modelled as exact rationals. -/

/-- The save/no-save decisions of the training loop, given the running best. -/
def checkpointGo (best : ℚ) : List ℚ → List Bool
  | [] => []
  | a :: rest => decide (best ≤ a) :: checkpointGo (if best ≤ a then a else best) rest

/-- Per-epoch checkpoint-overwrite decisions for a validation-accuracy run
(`best_val_acc` starts at `0.0`). -/
def checkpointSaves (accs : List ℚ) : List Bool :=
  checkpointGo 0 accs

/-- Running maximum seen by the training loop. -/
def bestAfter (best : ℚ) (l : List ℚ) : ℚ :=
  l.foldl max best

theorem bestAfter_le_iff (l : List ℚ) :
    ∀ b x : ℚ, bestAfter b l ≤ x ↔ b ≤ x ∧ ∀ a ∈ l, a ≤ x := by
  induction l with
  | nil => simp [bestAfter]
  | cons a l ih =>
    intro b x
    have : bestAfter b (a :: l) = bestAfter (max b a) l := rfl
    rw [this, ih]
    simp only [max_le_iff, List.mem_cons]
    constructor
    · rintro ⟨⟨hb, ha⟩, h⟩
      exact ⟨hb, fun c hc => hc.elim (fun e => e ▸ ha) (h c)⟩
    · rintro ⟨hb, h⟩
      exact ⟨⟨hb, h a (Or.inl rfl)⟩, fun c hc => h c (Or.inr hc)⟩

theorem checkpointGo_getD (l : List ℚ) :
    ∀ (best : ℚ) (i : Nat), i < l.length →
      (checkpointGo best l).getD i false = decide (bestAfter best (l.take i) ≤ l.getD i 0) := by
  induction l with
  | nil => intro best i hi; simp at hi
  | cons a rest ih =>
    intro best i hi
    match i with
    | 0 => simp [checkpointGo, bestAfter]
    | j + 1 =>
      have hj : j < rest.length := by simpa using hi
      have hstep : (if best ≤ a then a else best) = max best a := (max_def best a).symm
      simp only [checkpointGo, List.getD_cons_succ, List.take_succ_cons, List.getD_cons_succ, hstep]
      rw [ih (max best a) j hj]
      rfl

/-- C2: the per-variant checkpoint file is overwritten after epoch `i` iff
the epoch's validation accuracy is at least every earlier accuracy (the
running best starts at `0.0`, so with non-negative accuracies this is
exactly `a_i >= max(a_0..a_{i-1})`, and the first epoch always writes). -/
theorem checkpoint_saved_iff_best (accs : List ℚ) (hnn : ∀ a ∈ accs, 0 ≤ a)
    (i : Nat) (hi : i < accs.length) :
    (checkpointSaves accs).getD i false =
      decide (∀ a ∈ accs.take i, a ≤ accs.getD i 0) := by
  rw [checkpointSaves, checkpointGo_getD accs 0 i hi]
  have h0 : 0 ≤ accs.getD i 0 := by
    rw [List.getD_eq_getElem accs 0 hi]
    exact hnn _ (accs.getElem_mem hi)
  rw [decide_eq_decide]
  rw [bestAfter_le_iff]
  exact ⟨fun h => h.2, fun h => ⟨h0, h⟩⟩

/-- Witness for C2 at the accuracy sequence `[1, 2, 1]` and epoch `1`. -/
theorem checkpoint_saved_iff_best_witness :
    (checkpointSaves [(1 : ℚ), 2, 1]).getD 1 false =
      decide (∀ a ∈ ([(1 : ℚ), 2, 1]).take 1, a ≤ ([(1 : ℚ), 2, 1]).getD 1 0) :=
  checkpoint_saved_iff_best [(1 : ℚ), 2, 1] (by decide) 1 (by decide)

/-- C3 counterexample: with validation accuracies `[1, 1]`, epoch `1` is not
strictly better than the best seen before it, yet the code (`val_acc >=
best_val_acc`) overwrites the checkpoint — the claim's "only on
strictly-better accuracy" is false as stated. -/
theorem checkpoint_strict_counterexample :
    ¬ (bestAfter 0 (([(1 : ℚ), 1]).take 1) < ([(1 : ℚ), 1]).getD 1 0) ∧
    (checkpointSaves [(1 : ℚ), 1]).getD 1 false = true := by
  constructor
  · decide
  · decide

/-- C3 amended: the checkpoint is not overwritten at epoch `i` whenever the
epoch's validation accuracy is strictly below the running best (ties, by
contrast, do overwrite). -/
theorem checkpoint_not_saved_of_lt_best (accs : List ℚ) (i : Nat)
    (hi : i < accs.length) (hlt : accs.getD i 0 < bestAfter 0 (accs.take i)) :
    (checkpointSaves accs).getD i false = false := by
  rw [checkpointSaves, checkpointGo_getD accs 0 i hi]
  simp only [decide_eq_false_iff_not]
  exact not_le.mpr hlt

/-- Witness for the amended C3 at the accuracy sequence `[1, 0]`, epoch `1`. -/
theorem checkpoint_not_saved_of_lt_best_witness :
    (checkpointSaves [(1 : ℚ), 0]).getD 1 false = false :=
  checkpoint_not_saved_of_lt_best [(1 : ℚ), 0] 1 (by decide) (by decide)

/-! ### Character tokenizer of `eval_logs_memory`

Vocabulary `_ITOS = ["<pad>"] ++ [chr 32 .. chr 126]`, so a printable char
`c` has id `c.toNat - 31`, the pad id is `0`, and unknown chars map to the
space id `1`. `encode_text` truncates to `_MAX_SEQ_LEN = 256` and encodes
the empty string as `[space_id]`; `decode_ids` drops out-of-range ids and
the pad symbol. The `(1, seq_len)` tensor wrapper is dropped: we model the
id list itself. -/

/-- `_STOI.get(ch, _STOI[" "])`. -/
def stoi (c : Char) : Int :=
  if 32 ≤ c.toNat ∧ c.toNat ≤ 126 then (c.toNat : Int) - 31 else 1

/-- One step of `decode_ids`: keep ids in `[0, 96)`, drop the pad id `0`. -/
def decodeChar (i : Int) : Option Char :=
  if 0 ≤ i ∧ i < 96 ∧ i ≠ 0 then some (Char.ofNat (i.toNat + 31)) else none

/-- `encode_text` (the id list inside the returned tensor). -/
def encodeText (s : String) : List Int :=
  let ids := (s.data.take 256).map stoi
  if ids = [] then [1] else ids

/-- `decode_ids`. -/
def decodeIds (ids : List Int) : String :=
  String.mk (ids.filterMap decodeChar)

theorem decode_map_stoi (l : List Char) (h : ∀ c ∈ l, 32 ≤ c.toNat ∧ c.toNat ≤ 126) :
    (l.map stoi).filterMap decodeChar = l := by
  induction l with
  | nil => rfl
  | cons c rest ih =>
    have hc := h c (List.mem_cons_self c rest)
    have hrest := ih fun d hd => h d (List.mem_cons_of_mem c hd)
    have hstoi : stoi c = (c.toNat : Int) - 31 := if_pos hc
    have hcond : 0 ≤ (c.toNat : Int) - 31 ∧ (c.toNat : Int) - 31 < 96 ∧ (c.toNat : Int) - 31 ≠ 0 := by
      omega
    have htoNat : ((c.toNat : Int) - 31).toNat + 31 = c.toNat := by omega
    simp only [List.map_cons, List.filterMap_cons, hstoi, decodeChar, if_pos hcond]
    rw [htoNat, Char.ofNat_toNat, hrest]

theorem data_ne_nil_of_ne_empty (s : String) (h : s ≠ "") : s.data ≠ [] := by
  intro hd
  apply h
  cases s with
  | mk d =>
    cases hd
    rfl

/-- C5 (amended to non-empty strings): `decode_ids ∘ encode_text` is the
identity on non-empty printable-ASCII strings shorter than `_MAX_SEQ_LEN`,
and `encode_text` is injective on that domain. -/
theorem encode_decode_roundtrip (s t : String)
    (hs : s ≠ "") (hslen : s.length < 256)
    (hsp : ∀ c ∈ s.data, 32 ≤ c.toNat ∧ c.toNat ≤ 126)
    (ht : t ≠ "") (htlen : t.length < 256)
    (htp : ∀ c ∈ t.data, 32 ≤ c.toNat ∧ c.toNat ≤ 126) :
    decodeIds (encodeText s) = s ∧ (encodeText s = encodeText t → s = t) := by
  have henc : ∀ (u : String), u ≠ "" → u.length < 256 → encodeText u = u.data.map stoi := by
    intro u hu hulen
    have htake : u.data.take 256 = u.data :=
      List.take_of_length_le (le_of_lt hulen)
    have hne : u.data.map stoi ≠ [] := by
      simp only [ne_eq, List.map_eq_nil_iff]
      exact data_ne_nil_of_ne_empty u hu
    simp only [encodeText, htake, if_neg hne]
  have hdec : ∀ (u : String), u ≠ "" → u.length < 256 →
      (∀ c ∈ u.data, 32 ≤ c.toNat ∧ c.toNat ≤ 126) → decodeIds (encodeText u) = u := by
    intro u hu hulen hup
    rw [henc u hu hulen, decodeIds, decode_map_stoi u.data hup]
  refine ⟨hdec s hs hslen hsp, fun heq => ?_⟩
  have h1 := hdec s hs hslen hsp
  have h2 := hdec t ht htlen htp
  rw [← h1, ← h2, heq]

/-- Witness for C5 on the concrete string `"abc"`. -/
theorem encode_decode_roundtrip_witness :
    decodeIds (encodeText "abc") = "abc" ∧
    (encodeText "abc" = encodeText "abc" → ("abc" : String) = "abc") :=
  encode_decode_roundtrip "abc" "abc" (by decide) (by decide) (by decide)
    (by decide) (by decide) (by decide)

/-- C5 counterexample: the empty string lies in the claimed domain (shorter
than 256 characters, vacuously printable ASCII), but `encode_text` pads it
to `[space_id]`, so the roundtrip returns `" "` and `encode_text` collides
with the one-space string. -/
theorem encode_decode_empty_counterexample :
    ("" : String).length < 256 ∧ decodeIds (encodeText "") ≠ "" ∧
    encodeText "" = encodeText " " ∧ ("" : String) ≠ " " := by
  refine ⟨by decide, ?_, by decide, by decide⟩
  decide

/-! ### Logs evaluation harness (`eval_logs_memory.evaluate_level_prediction`)

The model under test is abstracted as its prediction function
`predict : history → question → answer` (the harness only calls
`model.predict_fn`). Rows carry the fields the loop reads. -/

/-- Numeric value of a digit run (the digits matched by `(-?\d+)`). -/
def natOfDigits (l : List Char) : Nat :=
  l.foldl (fun acc c => acc * 10 + (c.toNat - 48)) 0

/-- `extract_first_int`: leftmost match of the regex `(-?\d+)`, as an
integer; `None` when no digit occurs. A `-` counts only when immediately
followed by a digit, matching regex leftmost-match semantics. -/
def extractFirstInt : List Char → Option Int
  | [] => none
  | c :: rest =>
    if c.isDigit then some ((natOfDigits (c :: rest.takeWhile Char.isDigit) : Nat) : Int)
    else if c = '-' && (rest.headD ' ').isDigit then
      some (-((natOfDigits (rest.takeWhile Char.isDigit) : Nat) : Int))
    else extractFirstInt rest

/-- One row of the logs CSV, restricted to the fields the loop reads. -/
structure LogRow where
  uid : String
  level : Int
  message : String

/-- The loop state of `evaluate_level_prediction`. -/
structure EvalState where
  correct : Nat
  total : Nat
  history : List String

/-- `history_messages[-history_size:]` (Python: `-0` slices the whole list). -/
def windowHistory (msgs : List String) (historySize : Nat) : List String :=
  if historySize = 0 then msgs else msgs.drop (msgs.length - historySize)

/-- The templated question asked for each row. -/
def questionFor (uid : String) : String :=
  "After this event, what is the current level of user " ++ uid ++ "?"

/-- One iteration of the evaluation loop. -/
def evalStep (predict : List String → String → String) (historySize : Nat)
    (allowOffByOne : Bool) (st : EvalState) (row : LogRow) : EvalState :=
  let history := windowHistory st.history historySize
  let question := questionFor row.uid
  let predText := predict history question
  let correct :=
    match extractFirstInt predText.data with
    | none => st.correct
    | some p =>
      if allowOffByOne then (if |p - row.level| ≤ 1 then st.correct + 1 else st.correct)
      else (if p = row.level then st.correct + 1 else st.correct)
  { correct := correct, total := st.total + 1, history := st.history ++ [row.message] }

/-- `evaluate_level_prediction`'s loop over all rows. -/
def evalLogs (predict : List String → String → String) (rows : List LogRow)
    (historySize : Nat) (allowOffByOne : Bool) : EvalState :=
  rows.foldl (evalStep predict historySize allowOffByOne) ⟨0, 0, []⟩

theorem evalLogs_total_aux (predict : List String → String → String)
    (historySize : Nat) (allowOffByOne : Bool) :
    ∀ (rows : List LogRow) (st : EvalState),
      (rows.foldl (evalStep predict historySize allowOffByOne) st).total =
        st.total + rows.length := by
  intro rows
  induction rows with
  | nil => intro st; simp
  | cons r rest ih =>
    intro st
    rw [List.foldl_cons, ih]
    simp only [evalStep, List.length_cons]
    omega

/-- C9: every dataset row increments `total` exactly once; a prediction
with no parsable integer leaves `correct` unchanged while evaluation
continues; and `correct` increments at a row exactly when the first
integer extracted from the prediction equals the true level (or lies
within 1 of it in off-by-one mode). -/
theorem evaluate_level_counts (predict : List String → String → String)
    (rows : List LogRow) (r : LogRow) (historySize : Nat) (allowOffByOne : Bool) :
    (evalLogs predict rows historySize allowOffByOne).total = rows.length ∧
    (evalLogs predict (rows ++ [r]) historySize allowOffByOne).total = rows.length + 1 ∧
    (evalLogs predict (rows ++ [r]) historySize allowOffByOne).correct =
      (evalLogs predict rows historySize allowOffByOne).correct +
        (match extractFirstInt (predict
            (windowHistory (evalLogs predict rows historySize allowOffByOne).history historySize)
            (questionFor r.uid)).data with
         | none => 0
         | some p =>
            if allowOffByOne then (if |p - r.level| ≤ 1 then 1 else 0)
            else (if p = r.level then 1 else 0)) := by
  have happ : evalLogs predict (rows ++ [r]) historySize allowOffByOne =
      evalStep predict historySize allowOffByOne
        (evalLogs predict rows historySize allowOffByOne) r := by
    rw [evalLogs, List.foldl_append]
    rfl
  refine ⟨?_, ?_, ?_⟩
  · rw [evalLogs, evalLogs_total_aux]
    simp
  · rw [happ]
    simp only [evalStep]
    rw [evalLogs, evalLogs_total_aux]
    simp
  · rw [happ]
    simp only [evalStep]
    cases hm : extractFirstInt (predict
        (windowHistory (evalLogs predict rows historySize allowOffByOne).history historySize)
        (questionFor r.uid)).data with
    | none => simp
    | some p =>
      by_cases hoff : allowOffByOne
      · by_cases hok : |p - r.level| ≤ 1 <;> simp [hoff, hok]
      · by_cases hok : p = r.level <;> simp [hoff, hok]

/-! ### `SemanticEmbedder` / `LocalSemanticMemory`

The hash-seeded pseudo-random unit vector of `SemanticEmbedder` is
abstracted as an arbitrary fixed `embedFn : String → List ℚ` (it is a
deterministic function of the text). Cosine similarities `d / (‖q‖‖v‖)`
are ranked through the order-isomorphic rational key `d·|d| / (‖q‖²‖v‖²)`
(image under the strictly increasing `x ↦ x·|x|`), which avoids square
roots while deciding exactly the same comparisons. Python's stable
`list.sort(key=sim, reverse=True)` is modelled by a stable descending
insertion sort over entries tagged with their insertion index. -/

/-- One `(text, embedding)` entry of `LocalSemanticMemory.entries`. -/
structure MemEntry where
  text : String
  emb : List ℚ

/-- `SemanticEmbedder.get_embedding`'s empty/whitespace guard. -/
def getEmbedding (embedFn : String → List ℚ) (text : String) : Option (List ℚ) :=
  if text = "" || (pyStrip text.data).isEmpty then none else some (embedFn text)

/-- `LocalSemanticMemory.add` (`if not emb: return` skips both `None` and `[]`). -/
def memAdd (embedFn : String → List ℚ) (st : List MemEntry) (text : String) :
    List MemEntry :=
  match getEmbedding embedFn text with
  | none => st
  | some emb => if emb = [] then st else st ++ [⟨text, emb⟩]

/-- `FullMemoryLSTM.ingest_history`: add every history paragraph. -/
def ingestHistory (embedFn : String → List ℚ) (st : List MemEntry)
    (history : List String) : List MemEntry :=
  history.foldl (memAdd embedFn) st

/-- `np.dot` on rational vectors. -/
def dotQ : List ℚ → List ℚ → ℚ
  | [], _ => 0
  | _, [] => 0
  | a :: as, b :: bs => a * b + dotQ as bs

/-- Similarity scores of the non-degenerate entries (`if vn == 0: continue`),
tagged with their insertion index; the key is the order-isomorphic image of
the cosine similarity described above. -/
def scoreEntries (q : List ℚ) (i : Nat) : List MemEntry → List (ℚ × Nat × String)
  | [] => []
  | e :: es =>
    if dotQ e.emb e.emb = 0 then scoreEntries q (i + 1) es
    else
      (dotQ q e.emb * |dotQ q e.emb| / (dotQ q q * dotQ e.emb e.emb), i, e.text) ::
        scoreEntries q (i + 1) es

/-- Stable descending insert: a later element goes after every earlier
element whose key is at least its own (Python sort stability). -/
def insertDesc (x : ℚ × Nat × String) : List (ℚ × Nat × String) → List (ℚ × Nat × String)
  | [] => [x]
  | y :: ys => if x.1 ≤ y.1 then y :: insertDesc x ys else x :: y :: ys

/-- `scored.sort(key=lambda x: x[0], reverse=True)` (stable). -/
def sortDesc (l : List (ℚ × Nat × String)) : List (ℚ × Nat × String) :=
  l.foldl (fun acc x => insertDesc x acc) []

/-- `LocalSemanticMemory.search`. -/
def memSearch (embedFn : String → List ℚ) (st : List MemEntry) (query : String)
    (topK : Nat) : List String :=
  match getEmbedding embedFn query with
  | none => []
  | some q =>
    if q.isEmpty || st.isEmpty then []
    else if dotQ q q = 0 then []
    else ((sortDesc (scoreEntries q 0 st)).take topK).map (fun x => x.2.2)

/-- `a` is ranked before `b`: strictly higher similarity key, or an equal
key and an earlier insertion index (Python stable-sort tie-breaking). -/
def rankedBefore (a b : ℚ × Nat × String) : Prop :=
  b.1 < a.1 ∨ (a.1 = b.1 ∧ a.2.1 < b.2.1)

theorem mem_insertDesc (x z : ℚ × Nat × String) (l : List (ℚ × Nat × String)) :
    z ∈ insertDesc x l ↔ z = x ∨ z ∈ l := by
  induction l with
  | nil => simp [insertDesc]
  | cons y ys ih =>
    simp only [insertDesc]
    split
    · simp only [List.mem_cons, ih]
      tauto
    · simp [List.mem_cons]

theorem pairwise_insertDesc (x : ℚ × Nat × String) (l : List (ℚ × Nat × String))
    (hl : l.Pairwise rankedBefore) (hidx : ∀ y ∈ l, y.2.1 < x.2.1) :
    (insertDesc x l).Pairwise rankedBefore := by
  induction l with
  | nil => simp [insertDesc, List.pairwise_singleton]
  | cons y ys ih =>
    rw [List.pairwise_cons] at hl
    simp only [insertDesc]
    split
    · rename_i hle
      rw [List.pairwise_cons]
      constructor
      · intro z hz
        rcases (mem_insertDesc x z ys).mp hz with rfl | hzys
        · rcases lt_or_eq_of_le hle with hlt | heq
          · exact Or.inl hlt
          · exact Or.inr ⟨heq.symm, hidx y (List.mem_cons_self y ys)⟩
        · exact hl.1 z hzys
      · exact ih hl.2 fun z hz => hidx z (List.mem_cons_of_mem y hz)
    · rename_i hgt
      push_neg at hgt
      rw [List.pairwise_cons]
      constructor
      · intro z hz
        rcases List.mem_cons.mp hz with rfl | hzys
        · exact Or.inl hgt
        · rcases hl.1 z hzys with hlt | ⟨heq, _⟩
          · exact Or.inl (lt_trans hlt hgt)
          · exact Or.inl (heq ▸ hgt)
      · rw [List.pairwise_cons]
        exact hl

theorem foldl_insertDesc_pairwise :
    ∀ (l acc : List (ℚ × Nat × String)),
      acc.Pairwise rankedBefore →
      (∀ y ∈ acc, ∀ x ∈ l, y.2.1 < x.2.1) →
      l.Pairwise (fun a b => a.2.1 < b.2.1) →
      (l.foldl (fun acc x => insertDesc x acc) acc).Pairwise rankedBefore := by
  intro l
  induction l with
  | nil => intro acc hacc _ _; simpa using hacc
  | cons x xs ih =>
    intro acc hacc hsep hl
    rw [List.pairwise_cons] at hl
    rw [List.foldl_cons]
    apply ih
    · exact pairwise_insertDesc x acc hacc fun y hy =>
        hsep y hy x (List.mem_cons_self x xs)
    · intro y hy z hz
      rcases (mem_insertDesc x y acc).mp hy with rfl | hyacc
      · exact hl.1 z hz
      · exact hsep y hyacc z (List.mem_cons_of_mem x hz)
    · exact hl.2

theorem mem_foldl_insertDesc :
    ∀ (l acc : List (ℚ × Nat × String)) (z : ℚ × Nat × String),
      z ∈ l.foldl (fun acc x => insertDesc x acc) acc → z ∈ acc ∨ z ∈ l := by
  intro l
  induction l with
  | nil => intro acc z hz; exact Or.inl hz
  | cons x xs ih =>
    intro acc z hz
    rw [List.foldl_cons] at hz
    rcases ih _ z hz with hin | hin
    · rcases (mem_insertDesc x z acc).mp hin with rfl | hzacc
      · exact Or.inr (List.mem_cons_self z xs)
      · exact Or.inl hzacc
    · exact Or.inr (List.mem_cons_of_mem x hin)

theorem scoreEntries_idx_le (q : List ℚ) :
    ∀ (es : List MemEntry) (i : Nat), ∀ x ∈ scoreEntries q i es, i ≤ x.2.1 := by
  intro es
  induction es with
  | nil => intro i x hx; simp [scoreEntries] at hx
  | cons e es ih =>
    intro i x hx
    simp only [scoreEntries] at hx
    split at hx
    · exact le_of_lt (lt_of_lt_of_le (Nat.lt_succ_self i) (ih (i + 1) x hx))
    · rcases List.mem_cons.mp hx with rfl | hx
      · exact le_refl i
      · exact le_of_lt (lt_of_lt_of_le (Nat.lt_succ_self i) (ih (i + 1) x hx))

theorem scoreEntries_idx_sorted (q : List ℚ) :
    ∀ (es : List MemEntry) (i : Nat),
      (scoreEntries q i es).Pairwise (fun a b => a.2.1 < b.2.1) := by
  intro es
  induction es with
  | nil => intro i; simp [scoreEntries]
  | cons e es ih =>
    intro i
    simp only [scoreEntries]
    split
    · exact ih (i + 1)
    · rw [List.pairwise_cons]
      exact ⟨fun z hz => lt_of_lt_of_le (Nat.lt_succ_self i) (scoreEntries_idx_le q es (i + 1) z hz),
        ih (i + 1)⟩

theorem scoreEntries_text_mem (q : List ℚ) :
    ∀ (es : List MemEntry) (i : Nat), ∀ x ∈ scoreEntries q i es, ∃ e ∈ es, e.text = x.2.2 := by
  intro es
  induction es with
  | nil => intro i x hx; simp [scoreEntries] at hx
  | cons e es ih =>
    intro i x hx
    simp only [scoreEntries] at hx
    split at hx
    · rcases ih (i + 1) x hx with ⟨e', he', het⟩
      exact ⟨e', List.mem_cons_of_mem e he', het⟩
    · rcases List.mem_cons.mp hx with rfl | hx
      · exact ⟨e, List.mem_cons_self e es, rfl⟩
      · rcases ih (i + 1) x hx with ⟨e', he', het⟩
        exact ⟨e', List.mem_cons_of_mem e he', het⟩

/-- C4: `LocalSemanticMemory.search(q, k)` returns at most `k` texts, all of
them texts of stored entries; the ranked list is ordered by descending
cosine similarity with ties broken by insertion order; and — the embedding
being a pure function of the store and query — a repeated call on an
unchanged store returns the same ordered result. -/
theorem memSearch_spec (embedFn : String → List ℚ) (st : List MemEntry)
    (query : String) (k : Nat) :
    (memSearch embedFn st query k).length ≤ k ∧
    (∀ t ∈ memSearch embedFn st query k, ∃ e ∈ st, e.text = t) ∧
    (∀ q : List ℚ, (sortDesc (scoreEntries q 0 st)).Pairwise rankedBefore) ∧
    memSearch embedFn st query k = memSearch embedFn st query k := by
  have hsorted : ∀ q : List ℚ, (sortDesc (scoreEntries q 0 st)).Pairwise rankedBefore := by
    intro q
    apply foldl_insertDesc_pairwise
    · exact List.Pairwise.nil
    · intro y hy
      simp at hy
    · exact scoreEntries_idx_sorted q st 0
  refine ⟨?_, ?_, hsorted, rfl⟩
  · rw [memSearch]
    cases getEmbedding embedFn query with
    | none => simp
    | some q =>
      simp only
      split
      · simp
      · split
        · simp
        · rw [List.length_map]
          exact le_trans (List.length_take_le _ _) (le_refl _)
  · intro t ht
    rw [memSearch] at ht
    cases hq : getEmbedding embedFn query with
    | none => rw [hq] at ht; simp at ht
    | some q =>
      rw [hq] at ht
      simp only at ht
      split at ht
      · simp at ht
      · split at ht
        · simp at ht
        · rcases List.mem_map.mp ht with ⟨x, hx, hxt⟩
          have hx' : x ∈ sortDesc (scoreEntries q 0 st) := List.mem_of_mem_take hx
          rcases mem_foldl_insertDesc _ _ _ hx' with hin | hin
          · simp at hin
          · rcases scoreEntries_text_mem q st 0 x hin with ⟨e, he, het⟩
            exact ⟨e, he, het.trans hxt⟩

/-- C10: every entry ever stored has non-empty, non-whitespace text; `add`
with an empty or whitespace-only string leaves the store unchanged; and
`search` on an empty store, or with a whitespace-only query, returns `[]`. -/
theorem memStore_invariants (embedFn : String → List ℚ) (st : List MemEntry)
    (hinv : ∀ e ∈ st, e.text ≠ "" ∧ pyStrip e.text.data ≠ [])
    (history : List String) (text query : String) (k : Nat) :
    (∀ e ∈ ingestHistory embedFn st history, e.text ≠ "" ∧ pyStrip e.text.data ≠ []) ∧
    (∀ e ∈ memAdd embedFn st text, e.text ≠ "" ∧ pyStrip e.text.data ≠ []) ∧
    (pyStrip text.data = [] → memAdd embedFn st text = st) ∧
    memSearch embedFn [] query k = [] ∧
    (pyStrip query.data = [] → memSearch embedFn st query k = []) := by
  have hadd : ∀ (st' : List MemEntry) (t : String),
      (∀ e ∈ st', e.text ≠ "" ∧ pyStrip e.text.data ≠ []) →
      ∀ e ∈ memAdd embedFn st' t, e.text ≠ "" ∧ pyStrip e.text.data ≠ [] := by
    intro st' t hst' e he
    rw [memAdd] at he
    cases hg : getEmbedding embedFn t with
    | none => rw [hg] at he; exact hst' e he
    | some emb =>
      rw [hg] at he
      simp only at he
      split at he
      · exact hst' e he
      · rw [getEmbedding] at hg
        split at hg
        · exact absurd hg (by simp)
        · rename_i hguard
          rw [Bool.or_eq_true, decide_eq_true_iff, List.isEmpty_iff] at hguard
          push_neg at hguard
          rcases List.mem_append.mp he with hin | hin
          · exact hst' e hin
          · rcases List.mem_singleton.mp hin with rfl
            exact ⟨hguard.1, hguard.2⟩
  refine ⟨?_, hadd st text hinv, ?_, ?_, ?_⟩
  · have : ∀ (hs : List String) (st' : List MemEntry),
        (∀ e ∈ st', e.text ≠ "" ∧ pyStrip e.text.data ≠ []) →
        ∀ e ∈ ingestHistory embedFn st' hs, e.text ≠ "" ∧ pyStrip e.text.data ≠ [] := by
      intro hs
      induction hs with
      | nil => intro st' hst' e he; exact hst' e he
      | cons h hs ih =>
        intro st' hst' e he
        rw [ingestHistory, List.foldl_cons] at he
        exact ih (memAdd embedFn st' h) (hadd st' h hst') e he
    exact this history st hinv
  · intro hws
    rw [memAdd, getEmbedding]
    have : (text = "" || (pyStrip text.data).isEmpty) = true := by
      rw [Bool.or_eq_true]
      right
      rw [List.isEmpty_iff]
      exact hws
    rw [if_pos this]
  · rw [memSearch]
    cases getEmbedding embedFn query with
    | none => rfl
    | some q => simp
  · intro hws
    rw [memSearch, getEmbedding]
    have : (query = "" || (pyStrip query.data).isEmpty) = true := by
      rw [Bool.or_eq_true]
      right
      rw [List.isEmpty_iff]
      exact hws
    rw [if_pos this]

/-- Witness for C10 at a concrete store and inputs. -/
theorem memStore_invariants_witness :
    (∀ e ∈ ingestHistory (fun _ => [1]) [] ["python expert", " "],
        e.text ≠ "" ∧ pyStrip e.text.data ≠ []) ∧
    (∀ e ∈ memAdd (fun _ => [1]) [] " ", e.text ≠ "" ∧ pyStrip e.text.data ≠ []) ∧
    (pyStrip (" " : String).data = [] → memAdd (fun _ => [1]) [] " " = []) ∧
    memSearch (fun _ => [1]) [] " " 3 = [] ∧
    (pyStrip (" " : String).data = [] → memSearch (fun _ => [1]) [] " " 3 = []) :=
  memStore_invariants (fun _ => [1]) [] (by simp) ["python expert", " "] " " " " 3

/-! ### Summarization layer (extractive fallback) and NER fallback -/

/-- `". ".join(...)`-style list join. -/
def joinSep (sep : List Char) : List (List Char) → List Char
  | [] => []
  | [x] => x
  | x :: y :: rest => x ++ sep ++ joinSep sep (y :: rest)

/-- `SummarizationLayer._extractive_summarize`: first `maxSentences`
sentences split on `[.!?]+`, stripped, rejoined with `". "` and a trailing
period; degenerate text (no sentences) is returned unchanged. -/
def extractiveSummarize (text : List Char) (maxSentences : Nat) : List Char :=
  let sentences := ((splitSeps sentenceSep text).map pyStrip).filter (fun s => !s.isEmpty)
  if sentences.isEmpty then text
  else joinSep ['.', ' '] (sentences.take maxSentences) ++ ['.']

/-- `SummarizationLayer.summarize` when the abstractive summarizer is
unavailable (`self._summarizer is None`): empty/whitespace text gives `""`,
otherwise the extractive fallback with its default of 5 sentences. -/
def summarizeFallback (text : List Char) : List Char :=
  if text.isEmpty || (pyStrip text).isEmpty then []
  else extractiveSummarize text 5

/-- `SummarizationFeature.summarize` (no-summarizer path): summarize then
truncate to the feature's default token budget of 256. -/
def featureSummarize (text : List Char) : List Char :=
  truncateFallback (summarizeFallback text) 256

/-- `NERExtractor._fallback`'s fixed keyword list. -/
def techKeywords : List String :=
  ["python", "java", "javascript", "typescript", "react", "sql", "aws",
    "docker", "kubernetes"]

/-- Python `in` on strings: contiguous-substring test. -/
def containsSub (needle : List Char) : List Char → Bool
  | [] => needle.isEmpty
  | c :: rest => needle.isPrefixOf (c :: rest) || containsSub needle rest

/-- `str.title()` for the single-word keywords of the fallback list. -/
def pyTitle (w : String) : String :=
  match w.data with
  | [] => ""
  | c :: rest => String.mk (c.toUpper :: rest)

/-- `NERExtractor.extract_entities` on the spaCy-less fallback path: only
the `skills` bucket can be non-empty (keyword matching on the lowercased
text); empty/whitespace text yields no entities. -/
def nerExtractSkills (text : List Char) : List String :=
  if text.isEmpty || (pyStrip text).isEmpty then []
  else (techKeywords.filter fun kw => containsSub kw.data (text.map Char.toLower)).map pyTitle

/-- The `Skills:/Roles:/Companies:` entity block built by models 3 and 4;
on the fallback NER path the roles and companies buckets are always empty. -/
def entityBlockOf (text : List Char) : String :=
  let skills := nerExtractSkills text
  let parts : List String :=
    if skills.isEmpty then [] else ["Skills: " ++ String.intercalate ", " skills]
  String.intercalate "\n" parts

/-! ### The four memory variants' `build_memory_context`

Models 1 and 2 (`model_1_summarization.py`, `model_2_sum_toklimit.py`) are
not among the sources; they are modelled from the spec. Models 3 and 4 are
translated from `model_3_sum_tok_ner.py` / `model_4_full_memory.py`, on
the dependency-free fallback paths (no transformers, no spaCy). -/

/-- Modelled from the spec: `model_1_summarization.py` is missing from the
sources; spec §4.5 defines the Summarization-only variant's context as
`summarize(history)`, with the history joined by newlines as in the
sibling variants and the in-source extractive fallback when the
summarizer is unavailable. -/
def buildMemoryContext1 (history : List String) (_current : String) : String :=
  String.mk (summarizeFallback (String.intercalate "\n" history).data)

/-- Modelled from the spec: `model_2_sum_toklimit.py` is missing from the
sources; spec §4.5 defines the Summarization+TokenLimit variant's context
as "summarize then truncate to budget" (budget 256). -/
def buildMemoryContext2 (history : List String) (_current : String) : String :=
  String.mk (truncateFallback (summarizeFallback (String.intercalate "\n" history).data) 256)

/-- `SumTokNerLSTM.build_memory_context` (fallback paths, `STM_MAX_TOKENS = 256`). -/
def buildMemoryContext3 (history : List String) (_current : String) : String :=
  if history.isEmpty then ""
  else
    let summary := String.mk
      (truncateFallback (featureSummarize (String.intercalate "\n" history).data) 256)
    let eb := entityBlockOf summary.data
    summary ++ (if eb = "" then "" else "\n\n" ++ eb)

/-- `FullMemoryLSTM.build_memory_context` (fallback paths); the semantic
store is the explicit `entries` argument, the token budget of `tok_feat`
is the configurable `STM_MAX_TOKENS` (default 500). -/
def buildMemoryContext4 (embedFn : String → List ℚ) (entries : List MemEntry)
    (stmMaxTokens : Nat) (history : List String) (current : String) : String :=
  let summary0 := if history.isEmpty then ""
    else String.mk (featureSummarize (String.intercalate "\n" history).data)
  let summary := if summary0 = "" then ""
    else String.mk (truncateFallback summary0.data stmMaxTokens)
  let nerBlock := if summary = "" then "" else entityBlockOf summary.data
  let retrieved := memSearch embedFn entries current 3
  let retrievedBlock := if retrieved.isEmpty then "" else String.intercalate "\n\n" retrieved
  let blocks : List String :=
    (if summary = "" then [] else ["=== STM Summary ===\n" ++ summary]) ++
    (if nerBlock = "" then [] else ["=== Entities ===\n" ++ nerBlock]) ++
    (if retrievedBlock = "" then [] else ["=== Semantic Memories ===\n" ++ retrievedBlock])
  String.intercalate "\n\n" blocks

/-- C7: with the summarizer unavailable, the Summarization-only variant on
the one-element history `["a. b. c. d. e. f."]` returns exactly the first
5 sentences joined by `". "` with a trailing period, dropping the 6th. -/
theorem summarizationOnly_five_sentences (current : String) :
    buildMemoryContext1 ["a. b. c. d. e. f."] current = "a. b. c. d. e." := by
  rfl

/-- C8: every variant's `build_memory_context` on an empty history returns
an empty or minimal string (no summary and no entity block; for the full
memory variant, at most the semantic-retrieval block) and, being a total
function, does not raise. -/
theorem buildMemoryContext_empty_history (embedFn : String → List ℚ)
    (entries : List MemEntry) (stmMaxTokens : Nat) (current : String) :
    buildMemoryContext1 [] current = "" ∧
    buildMemoryContext2 [] current = "" ∧
    buildMemoryContext3 [] current = "" ∧
    (buildMemoryContext4 embedFn entries stmMaxTokens [] current = "" ∨
      ∃ rest : String, buildMemoryContext4 embedFn entries stmMaxTokens [] current =
        "=== Semantic Memories ===\n" ++ rest) := by
  refine ⟨rfl, rfl, rfl, ?_⟩
  rw [buildMemoryContext4]
  simp only [List.isEmpty_nil, if_pos rfl, if_true]
  by_cases hret : (memSearch embedFn entries current 3).isEmpty
  · left
    rw [if_pos hret]
    rfl
  · rw [if_neg hret]
    by_cases hblk : String.intercalate "\n\n" (memSearch embedFn entries current 3) = ""
    · left
      rw [if_pos hblk]
      rfl
    · right
      rw [if_neg hblk]
      exact ⟨String.intercalate "\n\n" (memSearch embedFn entries current 3), rfl⟩

/-! ### `lstm_memory.LSTMCell`

Real tensors are modelled over exact rationals; the nonlinearities
`torch.sigmoid` / `torch.tanh` are abstract function parameters `σ`, `τ`
(they are irrational functions; only the gate wiring is at stake). The
batch dimension of size 1 is dropped: `x`, `h`, `c` are vectors.
`torch.matmul(v, W.t())` is `Matrix.vecMul v Wᵀ`. -/

/-- The learnable parameters of `LSTMCell`, with the source's names. -/
structure LSTMCellParams (inputSize hiddenSize : Nat) where
  W_ii : Matrix (Fin hiddenSize) (Fin inputSize) ℚ
  W_hi : Matrix (Fin hiddenSize) (Fin hiddenSize) ℚ
  b_i : Fin hiddenSize → ℚ
  W_if : Matrix (Fin hiddenSize) (Fin inputSize) ℚ
  W_hf : Matrix (Fin hiddenSize) (Fin hiddenSize) ℚ
  b_f : Fin hiddenSize → ℚ
  W_ig : Matrix (Fin hiddenSize) (Fin inputSize) ℚ
  W_hg : Matrix (Fin hiddenSize) (Fin hiddenSize) ℚ
  b_g : Fin hiddenSize → ℚ
  W_io : Matrix (Fin hiddenSize) (Fin inputSize) ℚ
  W_ho : Matrix (Fin hiddenSize) (Fin hiddenSize) ℚ
  b_o : Fin hiddenSize → ℚ

/-- `LSTMCell.forward`, translated statement by statement (each gate is
`activation(matmul(x, W.t()) + matmul(h_prev, W_h.t()) + b)`). -/
def LSTMCellParams.forward {n h : Nat} (σ τ : ℚ → ℚ) (p : LSTMCellParams n h)
    (x : Fin n → ℚ) (hc : (Fin h → ℚ) × (Fin h → ℚ)) : (Fin h → ℚ) × (Fin h → ℚ) :=
  let hPrev := hc.1
  let cPrev := hc.2
  let iT := fun j => σ (Matrix.vecMul x p.W_ii.transpose j +
    Matrix.vecMul hPrev p.W_hi.transpose j + p.b_i j)
  let fT := fun j => σ (Matrix.vecMul x p.W_if.transpose j +
    Matrix.vecMul hPrev p.W_hf.transpose j + p.b_f j)
  let gT := fun j => τ (Matrix.vecMul x p.W_ig.transpose j +
    Matrix.vecMul hPrev p.W_hg.transpose j + p.b_g j)
  let cT := fun j => fT j * cPrev j + iT j * gT j
  let oT := fun j => σ (Matrix.vecMul x p.W_io.transpose j +
    Matrix.vecMul hPrev p.W_ho.transpose j + p.b_o j)
  let hT := fun j => oT j * τ (cT j)
  (hT, cT)

/-- The gated update exactly as the spec writes it: `i = σ(W_ii·x + W_hi·h
+ b_i)` etc., `c' = f⊙c + i⊙g`, `h' = o⊙tanh(c')`. -/
def lstmGateSpec {n h : Nat} (σ τ : ℚ → ℚ) (p : LSTMCellParams n h)
    (x : Fin n → ℚ) (hc : (Fin h → ℚ) × (Fin h → ℚ)) : (Fin h → ℚ) × (Fin h → ℚ) :=
  let i := fun j => σ (p.W_ii.mulVec x j + p.W_hi.mulVec hc.1 j + p.b_i j)
  let f := fun j => σ (p.W_if.mulVec x j + p.W_hf.mulVec hc.1 j + p.b_f j)
  let g := fun j => τ (p.W_ig.mulVec x j + p.W_hg.mulVec hc.1 j + p.b_g j)
  let o := fun j => σ (p.W_io.mulVec x j + p.W_ho.mulVec hc.1 j + p.b_o j)
  let c' := fun j => f j * hc.2 j + i j * g j
  (fun j => o j * τ (c' j), c')

/-- One entry of `nn.init.uniform_(param, lo, hi)` as the inverse-CDF image
of a uniform draw `r ∈ [0, 1]`. -/
def uniformSample (lo hi r : ℝ) : ℝ :=
  lo + r * (hi - lo)

/-- C6: `LSTMCell.forward` computes exactly the spec's gated update
(`i = σ(W_ii·x + W_hi·h + b_i)`, …, `c' = f⊙c + i⊙g`, `h' = o⊙tanh(c')`)
and nothing else, and every entry produced by `reset_parameters`
(`uniform_(param, -1/√hidden_size, 1/√hidden_size)`) lies in
`[-1/√hidden_size, 1/√hidden_size]`. -/
theorem lstm_cell_step {n h : Nat} (σ τ : ℚ → ℚ) (p : LSTMCellParams n h)
    (x : Fin n → ℚ) (hc : (Fin h → ℚ) × (Fin h → ℚ))
    (hiddenSize : Nat) (r : ℝ) (hr0 : 0 ≤ r) (hr1 : r ≤ 1) :
    LSTMCellParams.forward σ τ p x hc = lstmGateSpec σ τ p x hc ∧
    |uniformSample (-(1 / Real.sqrt hiddenSize)) (1 / Real.sqrt hiddenSize) r| ≤
      1 / Real.sqrt hiddenSize := by
  constructor
  · simp only [LSTMCellParams.forward, lstmGateSpec, Matrix.vecMul_transpose]
  · have hs : 0 ≤ 1 / Real.sqrt hiddenSize := by positivity
    rw [uniformSample, abs_le]
    constructor
    · nlinarith
    · nlinarith

/-- Witness for C6 at hidden size 1 and the zero cell. -/
theorem lstm_cell_step_witness :
    LSTMCellParams.forward id id
        (⟨0, 0, 0, 0, 0, 0, 0, 0, 0, 0, 0, 0⟩ : LSTMCellParams 1 1) 0 (0, 0) =
      lstmGateSpec id id (⟨0, 0, 0, 0, 0, 0, 0, 0, 0, 0, 0, 0⟩ : LSTMCellParams 1 1) 0 (0, 0) ∧
    |uniformSample (-(1 / Real.sqrt (1 : Nat))) (1 / Real.sqrt (1 : Nat)) (1 / 2)| ≤
      1 / Real.sqrt (1 : Nat) :=
  lstm_cell_step id id ⟨0, 0, 0, 0, 0, 0, 0, 0, 0, 0, 0, 0⟩ 0 (0, 0) 1 (1 / 2)
    (le_of_lt one_half_pos) (le_of_lt one_half_lt_one)

end SkillMiner
